import Mathlib

/-!
Shallow embedding of `src/anotacion_dpej.py` (repository
`oeg-upm/teresia-annotators`).

Strings are modelled as Lean `String`s and scanned through their `List Char`
data; all offsets are character offsets, matching Python `str` indexing.

Regular-expression matching is modelled semantically: the Python code only
ever builds regexes of the shape `\b(?:lit1|lit2|...)\b` where every `litN`
is a `re.escape`d literal, so matching a regex is literal case-insensitive
comparison against the alternatives (tried left to right, as Python
alternation does), guarded by a word-boundary test on both sides of the
whole group.  `re.escape` only ensures that the literal is interpreted
literally, which the embedding provides by construction, so patterns are
kept as plain strings.  `'|'.join` of an empty pattern list produces the
regex `\b(?:)\b`, whose group has one single empty alternative; the
embedding keeps that case faithfully (`alternatives [] = [[]]`).
-/

/-- Whitespace characters Python `str.split()` (no arguments) splits on. -/
def isSpace (c : Char) : Bool :=
  c == ' ' || c == '\t' || c == '\n' || c == '\r' || c == '\x0b' || c == '\x0c'

/-- Helper of `splitWS`: walks the characters, `acc` holds the current word
reversed, emitting maximal nonempty runs of non-whitespace characters. -/
def splitWSChars : List Char → List Char → List (List Char)
  | [], acc => if acc.isEmpty then [] else [acc.reverse]
  | c :: cs, acc =>
    if isSpace c then
      (if acc.isEmpty then splitWSChars cs [] else acc.reverse :: splitWSChars cs [])
    else splitWSChars cs (c :: acc)

/-- Python `expression.split()`: split on runs of whitespace, dropping
leading and trailing whitespace. -/
def splitWS (s : String) : List String :=
  (splitWSChars s.data []).map (fun l => String.mk l)

/-- Python `word.endswith(tuple-of-single-characters)`: the last character
of `w` is one of `cs` (case-sensitively, as in the source). -/
def endsOneOf (w : String) (cs : List Char) : Bool :=
  match w.data.getLast? with
  | some c => cs.contains c
  | none => false

/-- Python `word[:-1]`. -/
def strDropLast (w : String) : String := String.mk w.data.dropLast

/-- Embeds `generate_inflections` (source lines 6-20): singular plus one
plural form, chosen by the suffix of the word. -/
def generate_inflections (word : String) : List String :=
  let inflections := [word]
  if endsOneOf word ['a', 'e', 'i', 'o', 'u'] then inflections ++ [word ++ "s"]
  else if endsOneOf word ['á', 'é', 'í', 'ó', 'ú'] then inflections ++ [strDropLast word ++ "es"]
  else if endsOneOf word ['z'] then inflections ++ [strDropLast word ++ "ces"]
  else inflections ++ [word ++ "es"]

/-- Modelled from the wording of the specification (§4.1): the plural form
is selected by the first matching rule, in order: unaccented final vowel
adds "s"; accented final vowel drops it and adds "es"; final "z" becomes
"ces"; otherwise add "es".  Used to compare `generate_inflections` with the
specified rule. -/
def plural_spec (word : String) : String :=
  if endsOneOf word ['a', 'e', 'i', 'o', 'u'] then word ++ "s"
  else if endsOneOf word ['á', 'é', 'í', 'ó', 'ú'] then strDropLast word ++ "es"
  else if endsOneOf word ['z'] then strDropLast word ++ "ces"
  else word ++ "es"

/-- Python `zip(*lists)` specialised to lists of strings: truncates every
list to the length of the shortest one and transposes; `zip()` of no lists
is empty. -/
def pyZip (ls : List (List String)) : List (List String) :=
  match ls with
  | [] => []
  | l :: rest =>
    (List.range (rest.foldl (fun m x => Nat.min m x.length) l.length)).map
      (fun i => (l :: rest).map (fun x => x.getD i ""))

/-- Python `r' '.join(combo)`. -/
def joinSpace : List String → String
  | [] => ""
  | [w] => w
  | w :: ws => w ++ " " ++ joinSpace ws

/-- Embeds `build_inflected_patterns` (source lines 22-37).  The single-word
branch applies `generate_inflections` to the whole expression, exactly as
the source does; the multiword branch zips the per-word inflection lists
positionally.  `re.escape` is semantically the identity here (see header). -/
def build_inflected_patterns (expression : String) : List String :=
  let words := splitWS expression
  if words.length == 1 then
    generate_inflections expression
  else
    let inflected_forms := words.map generate_inflections
    (pyZip inflected_forms).map joinSpace

/-- Lowercasing used by `re.IGNORECASE` comparison, covering ASCII plus the
accented letters this development uses. -/
def lowerChar (c : Char) : Char :=
  if c == 'Á' then 'á' else if c == 'É' then 'é' else if c == 'Í' then 'í'
  else if c == 'Ó' then 'ó' else if c == 'Ú' then 'ú' else if c == 'Ñ' then 'ñ'
  else if c == 'Ü' then 'ü' else c.toLower

/-- Python regex `\w` (word character), restricted to the character
repertoire relevant to this development: ASCII alphanumerics, underscore and
the Spanish accented letters. -/
def isWordChar (c : Char) : Bool :=
  c.isAlphanum || c == '_' ||
    ['á', 'é', 'í', 'ó', 'ú', 'ñ', 'ü', 'Á', 'É', 'Í', 'Ó', 'Ú', 'Ñ', 'Ü'].contains c

/-- Whether position `i` of `t` holds a word character (`false` beyond the
end). -/
def wordAt (t : List Char) (i : Nat) : Bool :=
  match t.get? i with
  | some c => isWordChar c
  | none => false

/-- Python regex `\b` at position `i`: the word-character status changes
between positions `i - 1` and `i` (positions outside the text count as
non-word). -/
def boundary (t : List Char) (i : Nat) : Bool :=
  (decide (0 < i) && wordAt t (i - 1)) != wordAt t i

/-- Case-insensitive literal match of pattern `p` against `t` starting at
position `i`. -/
def litMatch (t : List Char) : Nat → List Char → Bool
  | _, [] => true
  | i, c :: cs =>
    match t.get? i with
    | some d => lowerChar d == lowerChar c && litMatch t (i + 1) cs
    | none => false

/-- Try the alternatives of the group left to right at position `i`, as
Python alternation does; an alternative succeeds when it matches literally
(case-insensitively) and the closing `\b` holds after it.  Returns the
length of the first succeeding alternative. -/
def tryPats (t : List Char) (i : Nat) : List (List Char) → Option Nat
  | [] => none
  | p :: ps =>
    if litMatch t i p && boundary t (i + p.length) then some p.length
    else tryPats t i ps

/-- Alternatives of the regex group `(?:{'|'.join(patterns)})`: the
patterns themselves, except that joining an empty list yields the group
`(?:)` with one single empty alternative. -/
def alternatives : List String → List (List Char)
  | [] => [[]]
  | ps => ps.map (fun p => p.data)

/-- One `re.finditer` scan of `t`: positions are tried left to right; a
match at `i` consumes up to its end (a zero-width match advances one
character, as Python does).  `fuel` is an upper bound on the remaining
iterations; `t.length + 1` always suffices because every step advances `i`
by at least one and the scan stops past the end of the text. -/
def scanGo (t : List Char) (alts : List (List Char)) : Nat → Nat → List ((Nat × Nat) × List Char)
  | 0, _ => []
  | fuel + 1, i =>
    if t.length < i then []
    else if boundary t i then
      match tryPats t i alts with
      | some len => ((i, i + len), (t.drop i).take len) :: scanGo t alts fuel (i + Nat.max len 1)
      | none => scanGo t alts fuel (i + 1)
    else scanGo t alts fuel (i + 1)

/-- Embeds `find_offsets_and_forms` (source lines 39-56): build the
inflected patterns, join them as `\b(?:...)\b`, scan the text once with
`re.finditer(..., re.IGNORECASE)` and return every match's span together
with the exact matched substring of the text. -/
def find_offsets_and_forms (text expression : String) : List ((Nat × Nat) × String) :=
  let patterns := build_inflected_patterns expression
  (scanGo text.data (alternatives patterns) (text.data.length + 1) 0).map
    (fun m => (m.1, String.mk m.2))

/-- Python `text[s:e]` for `0 ≤ s, e` (character offsets). -/
def sliceStr (text : String) (s e : Nat) : String :=
  String.mk ((text.data.drop s).take (e - s))

/-- The accumulated results: a Python `dict` mapping each matched surface
form to the list of its spans, represented as an association list in key
insertion order (Python dicts preserve insertion order and have no
duplicate keys). -/
abbrev ResultsIndex := List (String × List (Nat × Nat))

/-- Inner loop of `filter_offsets_across_words` (source lines 81-89): scan
one other key's offsets, setting the `is_contained` flag on any containing
offset; the length comparison only decides whether to `break` early and
cannot change the final flag.  Subtraction is truncated Nat subtraction,
which again only affects the early exit, never the result. -/
def innerLoop (s1 e1 : Nat) : List (Nat × Nat) → Bool → Bool
  | [], flag => flag
  | (s2, e2) :: rest, flag =>
    if s2 ≤ s1 ∧ e1 ≤ e2 then
      (if e1 - s1 < e2 - s2 then true else innerLoop s1 e1 rest true)
    else innerLoop s1 e1 rest flag

/-- Outer containment scan of `filter_offsets_across_words` (source lines
77-89): visit every entry of the dict, skipping the current word's own
entry, threading the `is_contained` flag. -/
def containedLoop (w : String) (s1 e1 : Nat) : ResultsIndex → Bool → Bool
  | [], flag => flag
  | q :: rest, flag =>
    if w = q.1 then containedLoop w s1 e1 rest flag
    else containedLoop w s1 e1 rest (innerLoop s1 e1 q.2 flag)

/-- Embeds `filter_offsets_across_words` (source lines 58-96): for every
key, keep exactly the offsets whose containment scan leaves the flag
unset; keys are kept in order (the source rebuilds the dict key by key). -/
def filter_offsets_across_words (data : ResultsIndex) : ResultsIndex :=
  data.map (fun p => (p.1, p.2.filter (fun sp => !containedLoop p.1 sp.1 sp.2 data false)))

/-- One record of the `SubLemas` array of a lexicon entry. -/
structure SubLema where
  Text : String
deriving DecidableEq

/-- One record of the `Body` array of a lexicon entry; the Python code
reads its `Type` field (named `Type'` here because `Type` is reserved). -/
structure BodyInfo where
  Type' : String
deriving DecidableEq

/-- One lexicon entry of `LemasInfo-dje.json`: `Name`, the optional
`SubLemas` array (`'SubLemas' in concept_record.keys()`), and `Body`. -/
structure ConceptRecord where
  Name : String
  SubLemas : Option (List SubLema)
  Body : List BodyInfo
deriving DecidableEq

/-- The dict update both accumulation loops of `search_in_dle` perform:
append the span to the existing key, or create the key at the end of the
dict when absent. -/
def insertResult : ResultsIndex → String → (Nat × Nat) → ResultsIndex
  | [], form, sp => [(form, [sp])]
  | p :: rest, form, sp =>
    if p.1 = form then (p.1, p.2 ++ [sp]) :: rest
    else p :: insertResult rest form sp

/-- Fold `insertResult` over a list of matches, in order. -/
def addAll (res : ResultsIndex) (ms : List ((Nat × Nat) × String)) : ResultsIndex :=
  ms.foldl (fun r m => insertResult r m.2 m.1) res

/-- The accumulation block `search_in_dle` runs for one term string (the
source repeats this block verbatim for subterms and for the entry name,
including the redundant `len(...) > 0` guard). -/
def scanTermInto (text : String) (res : ResultsIndex) (term : String) : ResultsIndex :=
  let found := find_offsets_and_forms text term
  if found.length > 0 then found.foldl (fun r m => insertResult r m.2 m.1) res else res

/-- Processing of one eligible lexicon entry inside `search_in_dle`
(source lines 106-125): all subterms first (when the `SubLemas` key is
present), then the entry's `Name`. -/
def scanEntry (text : String) (res : ResultsIndex) (r : ConceptRecord) : ResultsIndex :=
  let res1 :=
    match r.SubLemas with
    | some subs => subs.foldl (fun acc s => scanTermInto text acc s.Text) res
    | none => res
  scanTermInto text res1 r.Name

/-- Embeds `search_in_dle` (source lines 100-128; the Python default for
`termtype` is `'Lab.'`): iterate the lexicon entries in order, processing
an entry only when `termtype` occurs among its `Body` records' `Type`
values, then run `filter_offsets_across_words` once over the accumulated
dict and return the result. -/
def search_in_dle (dje_data : List ConceptRecord) (text : String) (results : ResultsIndex)
    (termtype : String) : ResultsIndex :=
  let accumulated := dje_data.foldl
    (fun res r =>
      if termtype ∈ r.Body.map (fun d => d.Type') then scanEntry text res r else res)
    results
  filter_offsets_across_words accumulated

/-- One output line of `execute_annotator` (source line 163), the f-string
`"{term_id}\t{term_type} {start} {end}\t{term.strip()}\n"` with
`term_type = 'concept'`; `String.trim` models Python `str.strip()`. -/
def formatLine (ind : Nat) (sp : Nat × Nat) (term : String) : String :=
  "T" ++ toString ind ++ "\t" ++ "concept" ++ " " ++ toString sp.1 ++ " " ++ toString sp.2
    ++ "\t" ++ term.trim ++ "\n"

/-- Inner writing loop of `execute_annotator`: one line per span of the
current term, incrementing the identifier counter. -/
def linesForTerm (term : String) : Nat → List (Nat × Nat) → List String
  | _, [] => []
  | ind, sp :: rest => formatLine ind sp term :: linesForTerm term (ind + 1) rest

/-- Outer writing loop of `execute_annotator` (source lines 156-164):
iterate the keys of the filtered index in order, threading the identifier
counter across keys. -/
def annLines : Nat → ResultsIndex → List String
  | _, [] => []
  | ind, (term, spans) :: rest => linesForTerm term ind spans ++ annLines (ind + spans.length) rest

/-- The pure serialization part of `execute_annotator`: the sequence of
lines written for one document, with the counter starting at 1. -/
def execute_annotator_lines (res : ResultsIndex) : List String := annLines 1 res

/-- All `(key, span)` pairs of an index, in visiting order: keys in
insertion order, spans in list order within each key. -/
def ann_pairs (res : ResultsIndex) : List (String × (Nat × Nat)) :=
  (res.map (fun p => p.2.map (fun sp => (p.1, sp)))).flatten

/-- Lowercase image of a string, character by character. -/
def lowerStr (s : String) : String := String.mk (s.data.map lowerChar)

/-- Modelled from the specification of DictionaryScanner (§4.4): the
matches one eligible entry contributes, subterms first (in `SubLemas`
order), then the entry's `Name`. -/
def entry_matches (text : String) (r : ConceptRecord) : List ((Nat × Nat) × String) :=
  ((r.SubLemas.getD []).map (fun s => find_offsets_and_forms text s.Text)).flatten
    ++ find_offsets_and_forms text r.Name

/-- Modelled from the specification of DictionaryScanner (§4.4), to be
compared with `search_in_dle`: entries processed in order, an entry
contributing exactly when the filter tag occurs among its `Body` records'
`Type` values, every match appended to the index, and the overlap
resolver applied exactly once after all entries. -/
def search_in_dle_spec (dje_data : List ConceptRecord) (text : String) (results : ResultsIndex)
    (termtype : String) : ResultsIndex :=
  filter_offsets_across_words
    (dje_data.foldl
      (fun res r =>
        if termtype ∈ r.Body.map (fun d => d.Type') then addAll res (entry_matches text r)
        else res)
      results)

/-- The span well-formedness invariant of the specification (§3): every
recorded `(key, span)` pair points at a genuine occurrence of `key` in the
text. -/
def indexOK (text : String) (res : ResultsIndex) : Prop :=
  ∀ p ∈ res, ∀ sp ∈ p.2, sp.1 < sp.2 ∧ sp.2 ≤ text.length ∧ sliceStr text sp.1 sp.2 = p.1

/-! ### Lemmas about the overlap resolver -/

/-- The inner scan sets the flag exactly when some offset of the other key
contains the current one; the early-exit length comparison cannot change
the outcome. -/
theorem innerLoop_eq (s1 e1 : Nat) (offs : List (Nat × Nat)) (flag : Bool) :
    innerLoop s1 e1 offs flag
      = (flag || offs.any (fun r => decide (r.1 ≤ s1) && decide (e1 ≤ r.2))) := by
  induction offs generalizing flag with
  | nil => simp [innerLoop]
  | cons r rest ih =>
    obtain ⟨s2, e2⟩ := r
    by_cases h : s2 ≤ s1 ∧ e1 ≤ e2
    · by_cases h2 : e1 - s1 < e2 - s2
      · simp [innerLoop, h, h2, h.1, h.2]
      · simp [innerLoop, h, h2, h.1, h.2, ih]
    · have h' : ¬ (s2 ≤ s1 ∧ e1 ≤ e2) := h
      rw [Decidable.not_and_iff_or_not] at h'
      rcases h' with h' | h'
      · simp [innerLoop, h, h', ih, Bool.or_assoc]
      · simp [innerLoop, h, h', ih, Bool.or_assoc]

/-- The whole containment scan of one span: the flag ends up set exactly
when some *other* key records a containing span. -/
theorem containedLoop_eq (w : String) (s1 e1 : Nat) (data : ResultsIndex) (flag : Bool) :
    containedLoop w s1 e1 data flag
      = (flag || data.any (fun q =>
          (!(w == q.1)) && q.2.any (fun r => decide (r.1 ≤ s1) && decide (e1 ≤ r.2)))) := by
  induction data generalizing flag with
  | nil => simp [containedLoop]
  | cons q rest ih =>
    by_cases h : w = q.1
    · subst h
      simp [containedLoop, ih]
    · have hb : (w == q.1) = false := beq_eq_false_iff_ne.mpr h
      simp [containedLoop, h, hb, ih, innerLoop_eq, Bool.or_assoc]

/-- Propositional form of `containedLoop_eq` at an unset initial flag. -/
theorem containedLoop_iff (w : String) (s1 e1 : Nat) (data : ResultsIndex) :
    containedLoop w s1 e1 data false = true ↔
      ∃ q ∈ data, q.1 ≠ w ∧ ∃ r ∈ q.2, r.1 ≤ s1 ∧ e1 ≤ r.2 := by
  rw [containedLoop_eq]
  simp [List.any_eq_true, ne_comm]

/-- C1: `filter_offsets_across_words` drops a span recorded under a key
exactly when some span recorded under a different key contains it (start1 ≥
start2 and end1 ≤ end2).  The right-hand side below mentions no span
lengths, so the relative lengths of the two spans never change the drop
decision, and the final conjunct shows an identical span recorded under
two different keys being removed from both. -/
theorem overlapResolver_drop_characterization :
    (∀ (data : ResultsIndex) (w : String) (s1 e1 : Nat),
        containedLoop w s1 e1 data false = true ↔
          ∃ q ∈ data, q.1 ≠ w ∧ ∃ r ∈ q.2, r.1 ≤ s1 ∧ e1 ≤ r.2) ∧
    (∀ data : ResultsIndex,
        filter_offsets_across_words data
          = data.map (fun p => (p.1, p.2.filter (fun sp =>
              !(data.any (fun q => (!(p.1 == q.1)) && q.2.any (fun r =>
                decide (r.1 ≤ sp.1) && decide (sp.2 ≤ r.2)))))))) ∧
    filter_offsets_across_words [("A", [(2, 8)]), ("B", [(2, 8)])] = [("A", []), ("B", [])] := by
  refine ⟨fun data w s1 e1 => containedLoop_iff w s1 e1 data, fun data => ?_, by decide⟩
  unfold filter_offsets_across_words
  apply List.map_congr_left
  intro p _
  congr 1
  apply List.filter_congr
  intro sp _
  rw [containedLoop_eq]
  simp [Bool.beq_comm]

/-- C8: the resolver never removes a span because of another span under the
same key: if every recorded span containing `sp` lives under the key `w`
that records `sp`, then `sp` survives under `w` in the output. -/
theorem overlapResolver_same_key_kept (data : ResultsIndex) (w : String)
    (offs : List (Nat × Nat)) (sp : Nat × Nat)
    (hmem : (w, offs) ∈ data) (hsp : sp ∈ offs)
    (honly : ∀ q ∈ data, ∀ r ∈ q.2, r.1 ≤ sp.1 → sp.2 ≤ r.2 → q.1 = w) :
    (w, offs.filter (fun s => !containedLoop w s.1 s.2 data false))
        ∈ filter_offsets_across_words data ∧
      sp ∈ offs.filter (fun s => !containedLoop w s.1 s.2 data false) := by
  constructor
  · exact List.mem_map_of_mem
      (fun p => (p.1, p.2.filter (fun s => !containedLoop p.1 s.1 s.2 data false))) hmem
  · rw [List.mem_filter]
    refine ⟨hsp, ?_⟩
    cases hc : containedLoop w sp.1 sp.2 data false with
    | false => rfl
    | true =>
      exfalso
      rw [containedLoop_iff] at hc
      obtain ⟨q, hq, hne, r, hr, h1, h2⟩ := hc
      exact hne (honly q hq r hr h1 h2)

/-- Witness for C8 at a concrete index: the span (0,5) of key "A" is only
contained in its own recording, so it is kept. -/
theorem overlapResolver_same_key_kept_witness :
    (("A", [(0, 5)].filter
        (fun s => !containedLoop "A" s.1 s.2 [("A", [(0, 5)]), ("B", [(7, 9)])] false))
          ∈ filter_offsets_across_words [("A", [(0, 5)]), ("B", [(7, 9)])] ∧
      (0, 5) ∈ [(0, 5)].filter
        (fun s => !containedLoop "A" s.1 s.2 [("A", [(0, 5)]), ("B", [(7, 9)])] false)) :=
  overlapResolver_same_key_kept [("A", [(0, 5)]), ("B", [(7, 9)])] "A" [(0, 5)] (0, 5)
    (by decide) (by decide) (by decide)

/-- C10: the resolver preserves the key sequence exactly (same keys, same
order, a key emptied of spans stays present), and each key's output span
list is a sublist of its input span list, so no span is added, reordered or
moved to another key. -/
theorem overlapResolver_shape (data : ResultsIndex) :
    (filter_offsets_across_words data).map Prod.fst = data.map Prod.fst ∧
    (filter_offsets_across_words data).length = data.length ∧
    ∀ p ∈ (filter_offsets_across_words data).zip data, p.1.1 = p.2.1 ∧ p.1.2.Sublist p.2.2 := by
  unfold filter_offsets_across_words
  refine ⟨?_, by simp, ?_⟩
  · have key : ∀ l : ResultsIndex,
        (l.map (fun p => (p.1, p.2.filter (fun sp => !containedLoop p.1 sp.1 sp.2 data false)))).map
            Prod.fst
          = l.map Prod.fst := by
      intro l
      induction l with
      | nil => rfl
      | cons a rest ih => simp [ih]
    exact key data
  · have key : ∀ l : ResultsIndex, ∀ p ∈
        ((l.map (fun p => (p.1, p.2.filter (fun sp => !containedLoop p.1 sp.1 sp.2 data false)))).zip
          l), p.1.1 = p.2.1 ∧ p.1.2.Sublist p.2.2 := by
      intro l
      induction l with
      | nil => intro p hp; cases hp
      | cons a rest ih =>
        intro p hp
        rcases List.mem_cons.mp hp with h | h
        · subst h
          exact ⟨rfl, List.filter_sublist _⟩
        · exact ih p h
    exact key data

/-! ### Lemmas about inflection generation and pattern building -/

/-- The inflection list is always the ordered pair of the word and the
plural selected by the specified suffix rule. -/
theorem generate_inflections_pair (w : String) :
    generate_inflections w = [w, plural_spec w] := by
  unfold generate_inflections plural_spec
  by_cases h1 : endsOneOf w ['a', 'e', 'i', 'o', 'u'] = true
  · simp [h1]
  · by_cases h2 : endsOneOf w ['á', 'é', 'í', 'ó', 'ú'] = true
    · simp [h1, h2]
    · by_cases h3 : endsOneOf w ['z'] = true
      · simp [h1, h2, h3]
      · simp [h1, h2, h3]

/-- C3: for every single word, `generate_inflections` returns the ordered
pair of the word and the plural given by the first matching rule
(unaccented final vowel + "s"; accented final vowel dropped + "es"; final
"z" replaced by "ces"; otherwise + "es"), and in particular the four
example words of the claim evaluate as stated (the accent of "café" is
lost in the plural). -/
theorem inflectionGenerator_rule :
    (∀ w : String, generate_inflections w = [w, plural_spec w]) ∧
    generate_inflections "mesa" = ["mesa", "mesas"] ∧
    generate_inflections "juez" = ["juez", "jueces"] ∧
    generate_inflections "ley" = ["ley", "leyes"] ∧
    generate_inflections "café" = ["café", "cafes"] :=
  ⟨generate_inflections_pair, by decide, by decide, by decide, by decide⟩

/-- Folding `Nat.min` over lengths that are all 2, starting from 2, gives
2. -/
theorem foldl_min_two (rest : List (List String)) (h : ∀ x ∈ rest, x.length = 2) :
    rest.foldl (fun m x => Nat.min m x.length) 2 = 2 := by
  induction rest with
  | nil => rfl
  | cons x xs ih =>
    have hx : x.length = 2 := h x (by simp)
    simp only [List.foldl_cons, hx, Nat.min_self]
    exact ih (fun y hy => h y (by simp [hy]))

/-- Python `zip(*lists)` over a nonempty family of 2-element lists is the
2-element transpose. -/
theorem pyZip_two (ls : List (List String)) (hne : ls ≠ []) (h : ∀ x ∈ ls, x.length = 2) :
    pyZip ls = [ls.map (fun x => x.getD 0 ""), ls.map (fun x => x.getD 1 "")] := by
  cases ls with
  | nil => exact absurd rfl hne
  | cons l rest =>
    have hl : l.length = 2 := h l (by simp)
    show (List.range (rest.foldl (fun m x => Nat.min m x.length) l.length)).map
        (fun i => (l :: rest).map (fun x => x.getD i ""))
      = [(l :: rest).map (fun x => x.getD 0 ""), (l :: rest).map (fun x => x.getD 1 "")]
    rw [hl, foldl_min_two rest (fun y hy => h y (by simp [hy]))]
    have hr : List.range 2 = [0, 1] := by decide
    rw [hr]
    rfl

/-- Helper for C2: with at least two words, the built patterns are exactly
the positional pairing of the per-word inflection lists. -/
theorem build_patterns_two (e : String) (h : 2 ≤ (splitWS e).length) :
    build_inflected_patterns e =
      [joinSpace ((splitWS e).map (fun w => (generate_inflections w).getD 0 "")),
       joinSpace ((splitWS e).map (fun w => (generate_inflections w).getD 1 ""))] := by
  have hne : ((splitWS e).length == 1) = false := by
    rw [beq_eq_false_iff_ne]
    omega
  simp only [build_inflected_patterns, hne, Bool.false_eq_true, if_false]
  have hlen : ∀ x ∈ (splitWS e).map generate_inflections, x.length = 2 := by
    intro x hx
    obtain ⟨w, _, rfl⟩ := List.mem_map.mp hx
    rw [generate_inflections_pair]
    rfl
  have hmapne : (splitWS e).map generate_inflections ≠ [] := by
    intro hc
    rw [List.map_eq_nil_iff] at hc
    rw [hc] at h
    exact absurd h (by decide)
  rw [pyZip_two _ hmapne hlen]
  simp only [List.map_map]
  rfl

/-- C2: for an expression of at least 2 whitespace-separated words,
`build_inflected_patterns` returns exactly 2 patterns, obtained by pairing
the per-word 2-element inflection lists positionally: pattern 0
space-joins every word's index-0 form and pattern 1 space-joins every
word's index-1 form, so no mixed combination of the 2^N cross product is
ever produced. -/
theorem patternBuilder_positional (e : String) (h : 2 ≤ (splitWS e).length) :
    build_inflected_patterns e =
      [joinSpace ((splitWS e).map (fun w => (generate_inflections w).getD 0 "")),
       joinSpace ((splitWS e).map (fun w => (generate_inflections w).getD 1 ""))] ∧
    (build_inflected_patterns e).length = 2 := by
  refine ⟨build_patterns_two e h, ?_⟩
  rw [build_patterns_two e h]
  rfl

/-- Witness for C2 at the specification's example: "mesa redonda" yields
exactly the two positional patterns and in particular not the mixed form
"mesa redondas". -/
theorem patternBuilder_positional_witness :
    build_inflected_patterns "mesa redonda" = ["mesa redonda", "mesas redondas"] :=
  ((patternBuilder_positional "mesa redonda" (by decide)).1).trans (by decide)

/-! ### Lemmas about the text scan -/

/-- A successful literal match of a nonempty pattern stays inside the
text. -/
theorem litMatch_bound (t : List Char) :
    ∀ (p : List Char) (i : Nat), litMatch t i p = true → p ≠ [] → i + p.length ≤ t.length := by
  intro p
  induction p with
  | nil => intro i _ hne; exact absurd rfl hne
  | cons c cs ih =>
    intro i h _
    simp only [litMatch] at h
    cases hg : t.get? i with
    | none => rw [hg] at h; cases h
    | some d =>
      rw [hg] at h
      rw [Bool.and_eq_true] at h
      have hm : litMatch t (i + 1) cs = true := h.2
      have hlt : i < t.length := by
        by_contra hc
        push_neg at hc
        rw [List.get?_eq_none.mpr hc] at hg
        cases hg
      cases cs with
      | nil => simp only [List.length_cons, List.length_nil]; omega
      | cons c2 cs2 =>
        have h2 := ih (i + 1) hm (by simp)
        simp only [List.length_cons] at h2 ⊢
        omega

/-- A successful alternation try comes from an alternative of exactly the
returned length that matches literally, with the closing word boundary
holding after it. -/
theorem tryPats_spec (t : List Char) (i : Nat) :
    ∀ (alts : List (List Char)) (len : Nat), tryPats t i alts = some len →
      ∃ p ∈ alts, p.length = len ∧ litMatch t i p = true ∧ boundary t (i + len) = true := by
  intro alts
  induction alts with
  | nil => intro len h; cases h
  | cons p ps ih =>
    intro len h
    simp only [tryPats] at h
    by_cases hc : (litMatch t i p && boundary t (i + p.length)) = true
    · rw [if_pos hc] at h
      rw [Bool.and_eq_true] at hc
      obtain ⟨h1, h2⟩ := hc
      have hlen := Option.some.inj h
      subst hlen
      exact ⟨p, by simp, rfl, h1, h2⟩
    · rw [if_neg hc] at h
      obtain ⟨q, hq, h1, h2, h3⟩ := ih len h
      exact ⟨q, by simp [hq], h1, h2, h3⟩

/-- Soundness of the scan: every reported match starts at or after the
scan position, lies inside the text, has word boundaries on both sides,
carries the exact text slice at its span, and its width is the length of
one of the alternatives. -/
theorem scanGo_mem (t : List Char) (alts : List (List Char)) :
    ∀ (fuel i : Nat), ∀ m ∈ scanGo t alts fuel i,
      i ≤ m.1.1 ∧ m.1.1 ≤ m.1.2 ∧ m.1.2 ≤ t.length ∧
      boundary t m.1.1 = true ∧ boundary t m.1.2 = true ∧
      m.2 = (t.drop m.1.1).take (m.1.2 - m.1.1) ∧
      ∃ p ∈ alts, p.length = m.1.2 - m.1.1 := by
  intro fuel
  induction fuel with
  | zero => intro i m hm; cases hm
  | succ fuel ih =>
    intro i m hm
    simp only [scanGo] at hm
    by_cases hle : t.length < i
    · rw [if_pos hle] at hm; cases hm
    · rw [if_neg hle] at hm
      by_cases hb : boundary t i = true
      · rw [if_pos hb] at hm
        cases htry : tryPats t i alts with
        | none =>
          rw [htry] at hm
          have h := ih (i + 1) m hm
          have h1 := h.1
          exact ⟨by omega, h.2⟩
        | some len =>
          rw [htry] at hm
          rcases List.mem_cons.mp hm with heq | htl
          · subst heq
            obtain ⟨p, hp, hplen, hlit, hbd⟩ := tryPats_spec t i alts len htry
            have hend : i + len ≤ t.length := by
              cases hlen0 : len with
              | zero => omega
              | succ n =>
                have hpne : p ≠ [] := by
                  intro hc
                  subst hc
                  simp only [List.length_nil] at hplen
                  omega
                have hlb := litMatch_bound t p i hlit hpne
                omega
            refine ⟨Nat.le_refl i, Nat.le_add_right i len, hend, hb, hbd, ?_, ⟨p, hp, ?_⟩⟩
            · show (t.drop i).take len = (t.drop i).take (i + len - i)
              rw [Nat.add_sub_cancel_left]
            · show p.length = i + len - i
              rw [Nat.add_sub_cancel_left]
              exact hplen
          · have h := ih (i + Nat.max len 1) m htl
            exact ⟨le_trans (Nat.le_add_right i _) h.1, h.2⟩
      · rw [if_neg hb] at hm
        have h := ih (i + 1) m hm
        have h1 := h.1
        exact ⟨by omega, h.2⟩

/-- The scan reports matches left to right, non-overlapping: each match
ends at or before the next one starts. -/
theorem scanGo_chain (t : List Char) (alts : List (List Char)) :
    ∀ (fuel i : Nat), List.Chain' (fun a b => a.1.2 ≤ b.1.1) (scanGo t alts fuel i) := by
  intro fuel
  induction fuel with
  | zero => intro i; exact List.chain'_nil
  | succ fuel ih =>
    intro i
    simp only [scanGo]
    by_cases hle : t.length < i
    · rw [if_pos hle]; exact List.chain'_nil
    · rw [if_neg hle]
      by_cases hb : boundary t i = true
      · rw [if_pos hb]
        cases htry : tryPats t i alts with
        | none => exact ih (i + 1)
        | some len =>
          refine List.chain'_cons'.mpr ⟨?_, ih (i + Nat.max len 1)⟩
          intro b hbh
          have hbm : b ∈ scanGo t alts fuel (i + Nat.max len 1) := List.mem_of_mem_head? hbh
          have h1 := (scanGo_mem t alts fuel (i + Nat.max len 1) b hbm).1
          show i + len ≤ b.1.1
          have hmax : len ≤ Nat.max len 1 := Nat.le_max_left len 1
          omega
      · rw [if_neg hb]; exact ih (i + 1)

/-- Soundness of `find_offsets_and_forms` lifted to strings: every match
is a boundary-delimited, in-range span whose surface form is the exact
slice of the source text, and whose width is the length of one of the
built alternatives. -/
theorem find_offsets_mem (text expression : String) :
    ∀ m ∈ find_offsets_and_forms text expression,
      m.1.1 ≤ m.1.2 ∧ m.1.2 ≤ text.length ∧
      boundary text.data m.1.1 = true ∧ boundary text.data m.1.2 = true ∧
      m.2 = sliceStr text m.1.1 m.1.2 ∧
      ∃ p ∈ alternatives (build_inflected_patterns expression), p.length = m.1.2 - m.1.1 := by
  intro m hm
  unfold find_offsets_and_forms at hm
  obtain ⟨m0, hm0, rfl⟩ := List.mem_map.mp hm
  have h := scanGo_mem text.data (alternatives (build_inflected_patterns expression))
    (text.data.length + 1) 0 m0 hm0
  exact ⟨h.2.1, h.2.2.1, h.2.2.2.1, h.2.2.2.2.1,
    congrArg String.mk h.2.2.2.2.2.1, h.2.2.2.2.2.2⟩

/-- The matches of `find_offsets_and_forms` come out left to right and
non-overlapping. -/
theorem find_offsets_chain (text expression : String) :
    List.Chain' (fun a b => a.1.2 ≤ b.1.1) (find_offsets_and_forms text expression) := by
  unfold find_offsets_and_forms
  rw [List.chain'_map]
  exact scanGo_chain text.data _ _ 0

/-- C4: `find_offsets_and_forms` scans left to right, non-overlapping
(each match ends at or before the next starts); every match lies inside
the text with word boundaries on both sides of its span (so a pattern
never matches strictly inside a longer alphanumeric run), and the returned
surface form is the exact substring of the source text at the span, hence
preserves the source casing.  Concretely, "ley" finds nothing inside
"leyenda", the case-insensitive scan of "La Mesa del comité" for "mesa"
returns the single match "Mesa" with the source casing, and zero matches
yield the empty list rather than an error. -/
theorem termMatcher_scan_properties :
    (∀ text expression : String,
        List.Chain' (fun a b => a.1.2 ≤ b.1.1) (find_offsets_and_forms text expression)) ∧
    (∀ text expression : String, ∀ m ∈ find_offsets_and_forms text expression,
        m.1.1 ≤ m.1.2 ∧ m.1.2 ≤ text.length ∧ m.2 = sliceStr text m.1.1 m.1.2 ∧
        boundary text.data m.1.1 = true ∧ boundary text.data m.1.2 = true) ∧
    find_offsets_and_forms "leyenda" "ley" = [] ∧
    find_offsets_and_forms "La Mesa del comité" "mesa" = [((3, 7), "Mesa")] := by
  refine ⟨find_offsets_chain, ?_, by decide, by decide⟩
  intro text expression m hm
  have h := find_offsets_mem text expression m hm
  exact ⟨h.1, h.2.1, h.2.2.2.2.1, h.2.2.1, h.2.2.2.1⟩

/-! ### Case-insensitivity of the matcher -/

/-- Literal matching only depends on the lowercase image of the pattern. -/
theorem litMatch_congr (t : List Char) :
    ∀ (p q : List Char), p.map lowerChar = q.map lowerChar →
      ∀ i, litMatch t i p = litMatch t i q := by
  intro p
  induction p with
  | nil =>
    intro q hq i
    cases q with
    | nil => rfl
    | cons d ds => simp at hq
  | cons c cs ih =>
    intro q hq i
    cases q with
    | nil => simp at hq
    | cons d ds =>
      simp only [List.map_cons, List.cons.injEq] at hq
      simp only [litMatch]
      cases hg : t.get? i with
      | none => rfl
      | some e => rw [hq.1, ih ds hq.2 (i + 1)]

/-- The alternation try only depends on the lowercase images of the
alternatives. -/
theorem tryPats_congr (t : List Char) (i : Nat) :
    ∀ (a b : List (List Char)),
      a.map (fun p => p.map lowerChar) = b.map (fun p => p.map lowerChar) →
      tryPats t i a = tryPats t i b := by
  intro a
  induction a with
  | nil =>
    intro b hb
    cases b with
    | nil => rfl
    | cons q qs => simp at hb
  | cons p ps ih =>
    intro b hb
    cases b with
    | nil => simp at hb
    | cons q qs =>
      simp only [List.map_cons, List.cons.injEq] at hb
      have hlen : p.length = q.length := by
        have h := congrArg List.length hb.1
        simpa using h
      simp only [tryPats]
      rw [litMatch_congr t p q hb.1 i, hlen, ih qs hb.2]

/-- The whole scan only depends on the lowercase images of the
alternatives. -/
theorem scanGo_congr (t : List Char) (a b : List (List Char))
    (h : a.map (fun p => p.map lowerChar) = b.map (fun p => p.map lowerChar)) :
    ∀ (fuel i : Nat), scanGo t a fuel i = scanGo t b fuel i := by
  intro fuel
  induction fuel with
  | zero => intro i; rfl
  | succ fuel ih =>
    intro i
    simp only [scanGo]
    rw [tryPats_congr t i a b h]
    by_cases h1 : t.length < i
    · rw [if_pos h1, if_pos h1]
    · rw [if_neg h1, if_neg h1]
      by_cases h2 : boundary t i = true
      · rw [if_pos h2, if_pos h2]
        cases htry : tryPats t i b with
        | none => exact ih (i + 1)
        | some len => exact congrArg (List.cons _) (ih (i + Nat.max len 1))
      · rw [if_neg h2, if_neg h2]
        exact ih (i + 1)

/-- Pattern lists with equal lowercase images give alternatives with equal
lowercase images. -/
theorem alternatives_congr (ps qs : List String)
    (h : ps.map lowerStr = qs.map lowerStr) :
    (alternatives ps).map (fun p => p.map lowerChar)
      = (alternatives qs).map (fun p => p.map lowerChar) := by
  have hdata : ps.map (fun s => s.data.map lowerChar) = qs.map (fun s => s.data.map lowerChar) := by
    have h2 := congrArg (List.map String.data) h
    simpa [List.map_map, Function.comp, lowerStr] using h2
  cases ps with
  | nil =>
    cases qs with
    | nil => rfl
    | cons q qs' => simp at hdata
  | cons p ps' =>
    cases qs with
    | nil => simp at hdata
    | cons q qs' =>
      show ((p :: ps').map (fun s => s.data)).map (fun l => l.map lowerChar)
        = ((q :: qs').map (fun s => s.data)).map (fun l => l.map lowerChar)
      rw [List.map_map, List.map_map]
      exact hdata

/-- C9 (amended): matching itself is case-insensitive: whenever two
expressions build pattern lists that agree letter-for-letter up to case,
`find_offsets_and_forms` returns identical results on every text.
Changing the casing of an input word leaves the found spans unchanged
exactly as long as the recased word still builds the same patterns up to
case, i.e. the casing change does not alter the chosen inflection rule. -/
theorem matching_case_insensitive (text e1 e2 : String)
    (h : (build_inflected_patterns e1).map lowerStr = (build_inflected_patterns e2).map lowerStr) :
    find_offsets_and_forms text e1 = find_offsets_and_forms text e2 := by
  exact congrArg (List.map (fun (m : (Nat × Nat) × List Char) => (m.1, String.mk m.2)))
    (scanGo_congr text.data _ _ (alternatives_congr _ _ h) (text.data.length + 1) 0)

/-- Witness for C9 at concrete input: "mesa" and "Mesa" build patterns
equal up to case, so they find the same matches in "la mesa". -/
theorem matching_case_insensitive_witness :
    find_offsets_and_forms "la mesa" "mesa" = find_offsets_and_forms "la mesa" "Mesa" :=
  matching_case_insensitive "la mesa" "mesa" "Mesa" (by decide)

/-- C9 counterexample to the claim as stated: inflection generation is
case-sensitive on the final character ("MESA" pluralises to "MESAes", not
"MESAs"), so recasing the input word "mesa" to "MESA" changes which spans
are found in the text "mesas". -/
theorem case_of_input_matters :
    find_offsets_and_forms "mesas" "mesa" ≠ find_offsets_and_forms "mesas" "MESA" := by
  decide

/-! ### Lemmas about the dictionary scan -/

/-- The redundant `len(...) > 0` guard around the accumulation loop never
changes the result. -/
theorem scanTermInto_eq_addAll (text : String) (res : ResultsIndex) (term : String) :
    scanTermInto text res term = addAll res (find_offsets_and_forms text term) := by
  unfold scanTermInto addAll
  by_cases h : (find_offsets_and_forms text term).length > 0
  · rw [if_pos h]
  · rw [if_neg h]
    have hnil : find_offsets_and_forms text term = [] := by
      cases hf : find_offsets_and_forms text term with
      | nil => rfl
      | cons a l => rw [hf] at h; simp at h
    rw [hnil]
    rfl

/-- Accumulating a concatenation accumulates both halves in order. -/
theorem addAll_append (res : ResultsIndex) (ms1 ms2 : List ((Nat × Nat) × String)) :
    addAll res (ms1 ++ ms2) = addAll (addAll res ms1) ms2 := by
  unfold addAll
  rw [List.foldl_append]

/-- Accumulating a flattened family accumulates each member in order. -/
theorem addAll_flatten (L : List (List ((Nat × Nat) × String))) :
    ∀ res : ResultsIndex, addAll res L.flatten = L.foldl addAll res := by
  induction L with
  | nil => intro res; rfl
  | cons l ls ih =>
    intro res
    simp only [List.flatten_cons, List.foldl_cons]
    rw [addAll_append, ih]

/-- One eligible entry contributes exactly its subterm matches (in
`SubLemas` order) followed by its `Name` matches. -/
theorem scanEntry_eq (text : String) (res : ResultsIndex) (r : ConceptRecord) :
    scanEntry text res r = addAll res (entry_matches text r) := by
  unfold scanEntry entry_matches
  have hfun : (fun acc s => scanTermInto text acc (SubLema.Text s))
      = (fun acc s => addAll acc (find_offsets_and_forms text (SubLema.Text s))) := by
    funext acc s
    exact scanTermInto_eq_addAll text acc s.Text
  cases hs : r.SubLemas with
  | none =>
    simp only [Option.getD_none, List.map_nil, List.flatten_nil, List.nil_append]
    exact scanTermInto_eq_addAll text res r.Name
  | some subs =>
    simp only [Option.getD_some]
    rw [scanTermInto_eq_addAll, addAll_append, addAll_flatten, List.foldl_map, hfun]

/-- C5-supporting equality: `search_in_dle` equals the specification-side
scanner: entries processed in order, an entry contributing exactly when
the filter tag occurs among its `Body` types, subterms before `Name`, and
the overlap resolver applied exactly once after the full scan. -/
theorem search_in_dle_eq_spec (dje_data : List ConceptRecord) (text : String)
    (results : ResultsIndex) (termtype : String) :
    search_in_dle dje_data text results termtype
      = search_in_dle_spec dje_data text results termtype := by
  unfold search_in_dle search_in_dle_spec
  have hfun : (fun (res : ResultsIndex) (r : ConceptRecord) =>
        if termtype ∈ r.Body.map (fun d => d.Type') then scanEntry text res r else res)
      = (fun (res : ResultsIndex) (r : ConceptRecord) =>
        if termtype ∈ r.Body.map (fun d => d.Type') then addAll res (entry_matches text r)
        else res) := by
    funext res r
    by_cases h : termtype ∈ r.Body.map (fun d => d.Type')
    · rw [if_pos h, if_pos h, scanEntry_eq]
    · rw [if_neg h, if_neg h]
  rw [hfun]

/-- A span under an absent key creates that key at the end of the index. -/
theorem insertResult_new (res : ResultsIndex) (form : String) (sp : Nat × Nat)
    (h : ∀ p ∈ res, p.1 ≠ form) :
    insertResult res form sp = res ++ [(form, [sp])] := by
  induction res with
  | nil => rfl
  | cons p rest ih =>
    unfold insertResult
    rw [if_neg (h p (by simp))]
    rw [ih (fun q hq => h q (by simp [hq]))]
    rfl

/-- A span under a present key is appended to that key's list, never
deduplicated, leaving everything else unchanged. -/
theorem insertResult_existing (res1 res2 : ResultsIndex) (form : String)
    (l : List (Nat × Nat)) (sp : Nat × Nat) (h : ∀ p ∈ res1, p.1 ≠ form) :
    insertResult (res1 ++ (form, l) :: res2) form sp = res1 ++ (form, l ++ [sp]) :: res2 := by
  induction res1 with
  | nil =>
    show insertResult ((form, l) :: res2) form sp = (form, l ++ [sp]) :: res2
    unfold insertResult
    rw [if_pos rfl]
  | cons p rest ih =>
    show insertResult (p :: (rest ++ (form, l) :: res2)) form sp = _
    unfold insertResult
    rw [if_neg (h p (by simp))]
    rw [ih (fun q hq => h q (by simp [hq]))]
    rfl

/-- C5: `search_in_dle` processes entries in order and contributes an
entry's matches exactly when the filter tag occurs among its `Body`
records' `Type` values; for an eligible entry all subterms of `SubLemas`
are scanned before the entry's `Name`; every match appends its span to the
index entry of its surface form, creating the key on first encounter
(second conjunct) and appending without deduplication otherwise (third
conjunct); the overlap resolver runs exactly once, after all entries. -/
theorem dictionaryScanner_structure :
    (∀ (dje_data : List ConceptRecord) (text : String) (results : ResultsIndex)
        (termtype : String),
        search_in_dle dje_data text results termtype
          = search_in_dle_spec dje_data text results termtype) ∧
    (∀ (res : ResultsIndex) (form : String) (sp : Nat × Nat), (∀ p ∈ res, p.1 ≠ form) →
        insertResult res form sp = res ++ [(form, [sp])]) ∧
    (∀ (res1 res2 : ResultsIndex) (form : String) (l : List (Nat × Nat)) (sp : Nat × Nat),
        (∀ p ∈ res1, p.1 ≠ form) →
        insertResult (res1 ++ (form, l) :: res2) form sp = res1 ++ (form, l ++ [sp]) :: res2) :=
  ⟨search_in_dle_eq_spec, insertResult_new, insertResult_existing⟩

/-- Witness for C5 at concrete inputs: a fresh key is created at the end
of the index, and an existing key receives an appended duplicate span. -/
theorem dictionaryScanner_structure_witness :
    insertResult [("x", [(0, 1)])] "y" (2, 3) = [("x", [(0, 1)]), ("y", [(2, 3)])] ∧
    insertResult [("x", [(0, 1)]), ("y", [(2, 3)])] "y" (2, 3)
      = [("x", [(0, 1)]), ("y", [(2, 3), (2, 3)])] :=
  ⟨dictionaryScanner_structure.2.1 [("x", [(0, 1)])] "y" (2, 3) (by decide),
   dictionaryScanner_structure.2.2 [("x", [(0, 1)])] [] "y" [(2, 3)] (2, 3) (by decide)⟩

/-! ### Lemmas about annotation serialization -/

/-- Splitting a `range'` interval. -/
theorem range'_add (s a b : Nat) :
    List.range' s (a + b) = List.range' s a ++ List.range' (s + a) b := by
  have h := List.range'_append s a b 1
  rw [Nat.one_mul] at h
  rw [Nat.add_comm b a] at h
  exact h.symm

/-- The per-key inner writing loop pairs consecutive identifiers with the
spans positionally. -/
theorem linesForTerm_range' (term : String) :
    ∀ (spans : List (Nat × Nat)) (n : Nat),
      linesForTerm term n spans
        = ((List.range' n spans.length).zip spans).map (fun x => formatLine x.1 x.2 term) := by
  intro spans
  induction spans with
  | nil => intro n; rfl
  | cons sp rest ih =>
    intro n
    show formatLine n sp term :: linesForTerm term (n + 1) rest = _
    rw [ih (n + 1)]
    simp only [List.length_cons, List.range'_succ, List.zip_cons_cons, List.map_cons]

/-- Unfolding of `ann_pairs` on a cons cell. -/
theorem ann_pairs_cons (p : String × List (Nat × Nat)) (rest : ResultsIndex) :
    ann_pairs (p :: rest) = p.2.map (fun sp => (p.1, sp)) ++ ann_pairs rest := by
  unfold ann_pairs
  simp

/-- The outer writing loop pairs the running identifier counter with the
flattened `(key, span)` visiting sequence positionally. -/
theorem annLines_range' :
    ∀ (res : ResultsIndex) (n : Nat),
      annLines n res
        = ((List.range' n (ann_pairs res).length).zip (ann_pairs res)).map
            (fun x => formatLine x.1 x.2.2 x.2.1) := by
  intro res
  induction res with
  | nil => intro n; rfl
  | cons p rest ih =>
    intro n
    show linesForTerm p.1 n p.2 ++ annLines (n + p.2.length) rest = _
    rw [ih (n + p.2.length)]
    rw [ann_pairs_cons]
    have hlen1 : (p.2.map (fun sp => (p.1, sp))).length = p.2.length := by simp
    rw [List.length_append, hlen1]
    rw [range'_add n p.2.length (ann_pairs rest).length]
    rw [List.zip_append (by simp)]
    rw [List.map_append]
    congr 1
    rw [linesForTerm_range' p.1 p.2 n]
    rw [List.zip_map_right]
    rw [List.map_map]
    rfl

/-- C6: the writer emits exactly one line per surviving `(key, span)`
pair, visiting keys in index order and spans in list order, with
identifiers "T1", "T2", ... assigned sequentially from 1 in visiting
order, fixed category "concept", and each line formatted exactly as
identifier, tab, category, space, start, space, end, tab, trimmed key
text, newline. -/
theorem annotationWriter_lines (res : ResultsIndex) :
    execute_annotator_lines res
      = ((List.range' 1 (ann_pairs res).length).zip (ann_pairs res)).map
          (fun x =>
            "T" ++ toString x.1 ++ "\t" ++ "concept" ++ " " ++ toString x.2.2.1 ++ " "
              ++ toString x.2.2.2 ++ "\t" ++ x.2.1.trim ++ "\n") ∧
    (execute_annotator_lines res).length = (ann_pairs res).length := by
  have h := annLines_range' res 1
  constructor
  · exact h
  · rw [show execute_annotator_lines res
        = ((List.range' 1 (ann_pairs res).length).zip (ann_pairs res)).map
            (fun x => formatLine x.1 x.2.2 x.2.1) from h]
    simp

/-! ### Span well-formedness through the whole pipeline -/

/-- String concatenation concatenates the character data. -/
theorem strData_append (a b : String) : (a ++ b).data = a.data ++ b.data := rfl

/-- Every word emitted by the splitter is a nonempty character run. -/
theorem splitWSChars_ne_nil :
    ∀ (cs acc : List Char), ∀ l ∈ splitWSChars cs acc, l ≠ [] := by
  intro cs
  induction cs with
  | nil =>
    intro acc l hl
    simp only [splitWSChars] at hl
    by_cases ha : acc.isEmpty = true
    · rw [if_pos ha] at hl; cases hl
    · rw [if_neg ha] at hl
      have : l = acc.reverse := by simpa using hl
      subst this
      simp only [ne_eq, List.reverse_eq_nil_iff]
      intro hc
      rw [hc] at ha
      exact ha rfl
  | cons c cs ih =>
    intro acc l hl
    simp only [splitWSChars] at hl
    by_cases hs : isSpace c = true
    · rw [if_pos hs] at hl
      by_cases ha : acc.isEmpty = true
      · rw [if_pos ha] at hl
        exact ih [] l hl
      · rw [if_neg ha] at hl
        rcases List.mem_cons.mp hl with heq | htl
        · subst heq
          simp only [ne_eq, List.reverse_eq_nil_iff]
          intro hc
          rw [hc] at ha
          exact ha rfl
        · exact ih [] l htl
    · rw [if_neg hs] at hl
      exact ih (c :: acc) l hl

/-- Every word returned by `splitWS` has nonempty character data. -/
theorem splitWS_words_ne (s : String) : ∀ w ∈ splitWS s, w.data ≠ [] := by
  intro w hw
  unfold splitWS at hw
  obtain ⟨l, hl, rfl⟩ := List.mem_map.mp hw
  exact splitWSChars_ne_nil s.data [] l hl

/-- The generated plural always has nonempty character data. -/
theorem plural_spec_ne (w : String) : (plural_spec w).data ≠ [] := by
  unfold plural_spec
  by_cases h1 : endsOneOf w ['a', 'e', 'i', 'o', 'u'] = true
  · simp [h1, strData_append]
  · by_cases h2 : endsOneOf w ['á', 'é', 'í', 'ó', 'ú'] = true
    · simp [h1, h2, strData_append]
    · by_cases h3 : endsOneOf w ['z'] = true
      · simp [h1, h2, h3, strData_append]
      · simp [h1, h2, h3, strData_append]

/-- Joining two or more strings with spaces yields a nonempty string. -/
theorem joinSpace_two_ne (a b : String) (l : List String) :
    (joinSpace (a :: b :: l)).data ≠ [] := by
  show ((a ++ " ") ++ joinSpace (b :: l)).data ≠ []
  rw [strData_append, strData_append]
  simp

/-- With at least one word in the expression, every built pattern is a
nonempty string. -/
theorem build_patterns_ne (e : String) (he : splitWS e ≠ []) :
    ∀ q ∈ build_inflected_patterns e, q.data ≠ [] := by
  intro q hq
  have hlenpos : 0 < (splitWS e).length := List.length_pos.mpr he
  by_cases h1 : (splitWS e).length = 1
  · have hone : ((splitWS e).length == 1) = true := by simp [h1]
    simp only [build_inflected_patterns, hone, if_true] at hq
    rw [generate_inflections_pair] at hq
    have hene : e.data ≠ [] := by
      intro hc
      apply he
      unfold splitWS
      have : e.data = ([] : List Char) := hc
      rw [this]
      rfl
    rcases List.mem_cons.mp hq with heq | hq2
    · subst heq; exact hene
    · have : q = plural_spec e := by simpa using hq2
      subst this
      exact plural_spec_ne e
  · have h2 : 2 ≤ (splitWS e).length := by omega
    rw [build_patterns_two e h2] at hq
    have key : ∀ f : String → String, (joinSpace ((splitWS e).map f)).data ≠ [] := by
      intro f
      cases hX : (splitWS e).map f with
      | nil =>
        exfalso
        rw [List.map_eq_nil_iff] at hX
        exact he hX
      | cons a tl =>
        cases tl with
        | nil =>
          exfalso
          have := congrArg List.length hX
          simp at this
          omega
        | cons b l2 => exact joinSpace_two_ne a b l2
    rcases List.mem_cons.mp hq with heq | hq2
    · subst heq; exact key _
    · have : q = joinSpace ((splitWS e).map (fun w => (generate_inflections w).getD 1 "")) := by
        simpa using hq2
      subst this
      exact key _

/-- With at least one word in the expression, every regex alternative is
nonempty. -/
theorem alternatives_ne (e : String) (he : splitWS e ≠ []) :
    ∀ p ∈ alternatives (build_inflected_patterns e), p ≠ [] := by
  intro p hp
  have hne : ∀ q ∈ build_inflected_patterns e, q.data ≠ [] := build_patterns_ne e he
  cases hb : build_inflected_patterns e with
  | nil =>
    exfalso
    by_cases h1 : (splitWS e).length = 1
    · have hone : ((splitWS e).length == 1) = true := by simp [h1]
      simp only [build_inflected_patterns, hone, if_true] at hb
      rw [generate_inflections_pair] at hb
      cases hb
    · have h2 : 2 ≤ (splitWS e).length := by
        have := List.length_pos.mpr he
        omega
      rw [build_patterns_two e h2] at hb
      cases hb
  | cons q qs =>
    rw [hb] at hp
    have hp2 : p ∈ (q :: qs).map (fun s => s.data) := hp
    obtain ⟨s, hs, rfl⟩ := List.mem_map.mp hp2
    rw [← hb] at hs
    exact hne s hs

/-- With at least one word in the expression, every match of
`find_offsets_and_forms` is a genuine nonempty span carrying the exact
text slice. -/
theorem find_offsets_good (text expression : String) (he : splitWS expression ≠ []) :
    ∀ m ∈ find_offsets_and_forms text expression,
      m.1.1 < m.1.2 ∧ m.1.2 ≤ text.length ∧ m.2 = sliceStr text m.1.1 m.1.2 := by
  intro m hm
  have h := find_offsets_mem text expression m hm
  obtain ⟨p, hp, hplen⟩ := h.2.2.2.2.2
  have hpne : p ≠ [] := alternatives_ne expression he p hp
  have hpos : 0 < p.length := List.length_pos.mpr hpne
  have h1 := h.1
  exact ⟨by omega, h.2.1, h.2.2.2.2.1⟩

/-- The dict update preserves span well-formedness when the inserted span
is well-formed for its surface form. -/
theorem insertResult_ok (text : String) :
    ∀ (res : ResultsIndex) (form : String) (sp : Nat × Nat),
      indexOK text res →
      sp.1 < sp.2 → sp.2 ≤ text.length → sliceStr text sp.1 sp.2 = form →
      indexOK text (insertResult res form sp) := by
  intro res
  induction res with
  | nil =>
    intro form sp _ h1 h2 h3 p hp sq hsq
    simp only [insertResult] at hp
    have hpe : p = (form, [sp]) := by simpa using hp
    subst hpe
    have hse : sq = sp := by simpa using hsq
    subst hse
    exact ⟨h1, h2, h3⟩
  | cons q rest ih =>
    intro form sp hres h1 h2 h3 p hp sq hsq
    unfold insertResult at hp
    by_cases hq : q.1 = form
    · rw [if_pos hq] at hp
      rcases List.mem_cons.mp hp with heq | htl
      · subst heq
        rcases List.mem_append.mp hsq with hin | hnew
        · exact hres q (by simp) sq hin
        · have hse : sq = sp := by simpa using hnew
          subst hse
          exact ⟨h1, h2, by rw [h3, hq]⟩
      · exact hres p (by simp [htl]) sq hsq
    · rw [if_neg hq] at hp
      rcases List.mem_cons.mp hp with heq | htl
      · subst heq
        exact hres p (by simp) sq hsq
      · exact ih form sp (fun r hr => hres r (by simp [hr])) h1 h2 h3 p htl sq hsq

/-- Folding well-formed matches into a well-formed index keeps it
well-formed. -/
theorem addAll_ok (text : String) :
    ∀ (ms : List ((Nat × Nat) × String)) (res : ResultsIndex),
      indexOK text res →
      (∀ m ∈ ms, m.1.1 < m.1.2 ∧ m.1.2 ≤ text.length ∧ m.2 = sliceStr text m.1.1 m.1.2) →
      indexOK text (addAll res ms) := by
  intro ms
  induction ms with
  | nil => intro res h _; exact h
  | cons m rest ih =>
    intro res h hms
    show indexOK text (addAll (insertResult res m.2 m.1) rest)
    have hm := hms m (by simp)
    refine ih (insertResult res m.2 m.1) ?_ (fun x hx => hms x (by simp [hx]))
    exact insertResult_ok text res m.2 m.1 h hm.1 hm.2.1 hm.2.2.symm

/-- Scanning one term with at least one word preserves well-formedness. -/
theorem scanTermInto_ok (text : String) (res : ResultsIndex) (term : String)
    (h : indexOK text res) (hterm : splitWS term ≠ []) :
    indexOK text (scanTermInto text res term) := by
  rw [scanTermInto_eq_addAll]
  exact addAll_ok text _ res h (fun m hm => find_offsets_good text term hterm m hm)

/-- Scanning all subterms preserves well-formedness. -/
theorem foldSubs_ok (text : String) :
    ∀ (subs : List SubLema) (res : ResultsIndex),
      indexOK text res → (∀ s ∈ subs, splitWS s.Text ≠ []) →
      indexOK text (subs.foldl (fun acc s => scanTermInto text acc s.Text) res) := by
  intro subs
  induction subs with
  | nil => intro res h _; exact h
  | cons s rest ih =>
    intro res h hsubs
    simp only [List.foldl_cons]
    exact ih (scanTermInto text res s.Text)
      (scanTermInto_ok text res s.Text h (hsubs s (by simp)))
      (fun x hx => hsubs x (by simp [hx]))

/-- Scanning one lexicon entry whose term strings all hold at least one
word preserves well-formedness. -/
theorem scanEntry_ok (text : String) (res : ResultsIndex) (r : ConceptRecord)
    (h : indexOK text res) (hname : splitWS r.Name ≠ [])
    (hsubs : ∀ s ∈ r.SubLemas.getD [], splitWS s.Text ≠ []) :
    indexOK text (scanEntry text res r) := by
  unfold scanEntry
  cases hs : r.SubLemas with
  | none => exact scanTermInto_ok text res r.Name h hname
  | some subs =>
    rw [hs] at hsubs
    exact scanTermInto_ok text _ r.Name
      (foldSubs_ok text subs res h (by simpa using hsubs)) hname

/-- The accumulation loop of `search_in_dle` preserves well-formedness
when every entry's term strings hold at least one word. -/
theorem searchFold_ok (text termtype : String) :
    ∀ (dje : List ConceptRecord) (res : ResultsIndex),
      indexOK text res →
      (∀ r ∈ dje, splitWS r.Name ≠ [] ∧ ∀ s ∈ r.SubLemas.getD [], splitWS s.Text ≠ []) →
      indexOK text (dje.foldl
        (fun res r =>
          if termtype ∈ r.Body.map (fun d => d.Type') then scanEntry text res r else res)
        res) := by
  intro dje
  induction dje with
  | nil => intro res h _; exact h
  | cons r rest ih =>
    intro res h hlex
    simp only [List.foldl_cons]
    refine ih _ ?_ (fun x hx => hlex x (by simp [hx]))
    by_cases hel : termtype ∈ r.Body.map (fun d => d.Type')
    · rw [if_pos hel]
      have hr := hlex r (by simp)
      exact scanEntry_ok text res r h hr.1 hr.2
    · rw [if_neg hel]
      exact h

/-- The overlap resolver only removes spans, so it preserves
well-formedness. -/
theorem filter_ok (text : String) (data : ResultsIndex) (h : indexOK text data) :
    indexOK text (filter_offsets_across_words data) := by
  intro p hp sp hsp
  unfold filter_offsets_across_words at hp
  obtain ⟨q, hq, rfl⟩ := List.mem_map.mp hp
  exact h q hq sp (List.mem_of_mem_filter hsp)

/-- C7 (amended): provided every scanned lexicon term (entry `Name`s and
subterm texts) holds at least one whitespace-separated word, every
`(key, span)` pair of the final filtered index satisfies
`span.start < span.end ≤ len(text)` and `text[span.start:span.end] = key`
(starts are `Nat`s, so `0 ≤ span.start` holds by type). -/
theorem scanner_spans_exact (dje : List ConceptRecord) (text termtype : String)
    (hlex : ∀ r ∈ dje, splitWS r.Name ≠ [] ∧ ∀ s ∈ r.SubLemas.getD [], splitWS s.Text ≠ []) :
    ∀ p ∈ search_in_dle dje text [] termtype, ∀ sp ∈ p.2,
      sp.1 < sp.2 ∧ sp.2 ≤ text.length ∧ sliceStr text sp.1 sp.2 = p.1 := by
  have h0 : indexOK text [] := by intro p hp; cases hp
  exact filter_ok text _ (searchFold_ok text termtype dje [] h0 hlex)

/-- Witness for C7 at a concrete run: one entry "mesa" over the text
"la mesa" produces the span (3,7), which is a genuine occurrence. -/
theorem scanner_spans_exact_witness :
    3 < 7 ∧ 7 ≤ ("la mesa" : String).length ∧ sliceStr "la mesa" 3 7 = "mesa" :=
  scanner_spans_exact [⟨"mesa", none, [⟨"Lab."⟩]⟩] "la mesa" "Lab." (by decide)
    ("mesa", [(3, 7)]) (by decide) (3, 7) (by decide)

/-- C7 counterexample to the claim as stated over every lexicon: an entry
whose `Name` is the empty string makes the joined regex `\b(?:)\b`, whose
zero-width matches put the span (0,0) into the final index for the text
"a", violating `span.start < span.end`. -/
theorem scanner_spans_counterexample :
    ¬ (∀ p ∈ search_in_dle [⟨"", none, [⟨"Lab."⟩]⟩] "a" [] "Lab.", ∀ sp ∈ p.2,
        sp.1 < sp.2 ∧ sp.2 ≤ ("a" : String).length ∧ sliceStr "a" sp.1 sp.2 = p.1) := by
  decide

/-- Witness for C4 at a concrete match: the "Mesa" match of "mesa" in
"La Mesa del comité" is in range, boundary-delimited, and carries the
exact source slice. -/
theorem termMatcher_scan_properties_witness :
    3 ≤ 7 ∧ 7 ≤ ("La Mesa del comité" : String).length ∧
      "Mesa" = sliceStr "La Mesa del comité" 3 7 ∧
      boundary ("La Mesa del comité" : String).data 3 = true ∧
      boundary ("La Mesa del comité" : String).data 7 = true :=
  termMatcher_scan_properties.2.1 "La Mesa del comité" "mesa" ((3, 7), "Mesa") (by decide)

/-- Witness for C10 at a concrete index: keys survive in order even when a
key loses all spans, and the emptied list is a sublist of the original. -/
theorem overlapResolver_shape_witness :
    (filter_offsets_across_words [("A", [(0, 5)]), ("B", [(0, 10)])]).map Prod.fst
        = ["A", "B"] ∧
    ([] : List (Nat × Nat)).Sublist [(0, 5)] :=
  ⟨((overlapResolver_shape [("A", [(0, 5)]), ("B", [(0, 10)])]).1).trans (by decide),
   ((overlapResolver_shape [("A", [(0, 5)]), ("B", [(0, 10)])]).2.2
      (("A", []), ("A", [(0, 5)])) (by decide)).2⟩
